import Mathlib

/-!
# Verification of the all-hands patch/update engine

Shallow embedding of `scripts/allhands/patch.py` and
`scripts/allhands/update.py`.

File contents are modelled as `String`s, file trees as association lists
from relative path to content, and every external process (git, diff,
patch) as an oracle supplied in an environment record, mirroring the
`subprocess.run` call sites of the source.
-/

set_option autoImplicit false

namespace AllHands

/-- Characters Python's `str.strip()` / `str.isspace()` treats as whitespace
(ASCII fragment: space, tab, newline, carriage return, vertical tab, form feed). -/
def pyIsSpace (c : Char) : Bool :=
  c = ' ' || c = '\t' || c = '\n' || c = '\r' || c = Char.ofNat 11 || c = Char.ofNat 12

/-- Python truthiness of `s.strip()` negated: `not s.strip()` holds iff every
character of `s` is whitespace. -/
def isBlank (s : String) : Bool :=
  s.data.all pyIsSpace

/-- Python `s.strip()` on a character list. -/
def stripChars (l : List Char) : List Char :=
  ((l.dropWhile pyIsSpace).reverse.dropWhile pyIsSpace).reverse

/-- Python `s.strip()`. -/
def pyStrip (s : String) : String :=
  ⟨stripChars s.data⟩

/-- Python `s.split("\n")` on a character list: split at every newline,
keeping empty segments (always returns at least one segment). -/
def splitNl : List Char → List (List Char)
  | [] => [[]]
  | c :: rest =>
    if c = '\n' then [] :: splitNl rest
    else
      match splitNl rest with
      | [] => [[c]]
      | l :: ls => (c :: l) :: ls

/-- Python `"\n".join(lines)` on character lists. -/
def joinNl : List (List Char) → List Char
  | [] => []
  | [l] => l
  | l :: ls => l ++ '\n' :: joinNl ls

/-- Result of a `subprocess.run` call: exit code, stdout, stderr. -/
structure ProcResult where
  exitCode : Int
  stdout : String
  stderr : String
  deriving DecidableEq, Repr

/-- A file tree: association list from relative path to file content.
A path absent from the list is a file that does not exist. -/
def Tree := List (String × String)

instance : DecidableEq Tree := by
  unfold Tree
  infer_instance

/-- Look up the content of path `p` in tree `T`. -/
def Tree.find? : Tree → String → Option String
  | [], _ => none
  | (q, c) :: t, p => if q = p then some c else Tree.find? t p

/-- Remove path `p` from tree `T` (models `Path.unlink`). -/
def Tree.erase : Tree → String → Tree
  | [], _ => []
  | (q, c) :: t, p => if q = p then Tree.erase t p else (q, c) :: Tree.erase t p

/-- Write content `c` at path `p` in tree `T` (models writing a file,
overwriting any previous content). -/
def Tree.insert (T : Tree) (p c : String) : Tree :=
  (p, c) :: Tree.erase T p

/-! ## `patch.py`: PatchHeader -/

/-- Metadata stored in the `.allhands.patch` header (`PatchHeader` dataclass). -/
structure PatchHeader where
  base_commit : String
  generated : String
  deriving DecidableEq, Repr

/-- Lowercase-hex character class `[a-f0-9]` of the base-commit regex. -/
def isHexCh (c : Char) : Bool :=
  ('a' ≤ c && c ≤ 'f') || ('0' ≤ c && c ≤ '9')

/-- The literal prefix of the base-commit pattern
`^# claude-all-hands base: ([a-f0-9]+)`. -/
def baseMark : List Char := "# claude-all-hands base: ".data

/-- The literal prefix of the generated pattern `^# generated: (.+)$`. -/
def genMark : List Char := "# generated: ".data

/-- Match one line against `^# claude-all-hands base: ([a-f0-9]+)`:
the line must start with the literal prefix followed by at least one
`[a-f0-9]` character; the greedy group captures the maximal hex run. -/
def matchBase (l : List Char) : Option String :=
  if baseMark.isPrefixOf l then
    let hex := (l.drop baseMark.length).takeWhile isHexCh
    if hex.isEmpty then none else some ⟨hex⟩
  else none

/-- Match one line against `^# generated: (.+)$`: the line must start with
the literal prefix followed by at least one character; the greedy group
captures the rest of the line. -/
def matchGen (l : List Char) : Option String :=
  if genMark.isPrefixOf l then
    let rest := l.drop genMark.length
    if rest.isEmpty then none else some ⟨rest⟩
  else none

/-- `PatchHeader.parse`: `re.search` with `re.MULTILINE` scans the lines in
order and takes the first line matching each pattern, independently;
if no base-commit line matches, the whole header is absent, and an absent
generated line defaults to `""`. -/
def PatchHeader.parse (content : String) : Option PatchHeader :=
  let lines := splitNl content.data
  match lines.findSome? matchBase with
  | none => none
  | some base =>
    some { base_commit := base
           generated := (lines.findSome? matchGen).getD "" }

/-- `PatchHeader.to_string`. -/
def PatchHeader.toText (h : PatchHeader) : String :=
  "# claude-all-hands base: " ++ h.base_commit ++ "\n# generated: " ++ h.generated ++ "\n\n"

/-! ## `patch.py`: revision query, generation, application, overlay store -/

/-- `get_current_commit`: `git rev-parse HEAD` is an external process whose
result is supplied as `r`; a non-zero exit raises `RuntimeError`, otherwise
the stripped stdout is truncated to 7 characters. -/
def get_current_commit (r : ProcResult) : Except String String :=
  if r.exitCode ≠ 0 then .error ("Failed to get commit: " ++ r.stderr)
  else .ok ((pyStrip r.stdout).take 7)

/-- The diff-tool oracle: `diff -u --label a/<path> --label b/<path> - <target>`
with the source content on stdin, keyed by path, source content, target
content. -/
def DiffOracle := String → String → String → ProcResult

/-- Source-side content used by `generate_patch` for one file:
`source_file.read_text() if source_file.exists() else ""`. -/
def sourceContent (S : Tree) (p : String) : String :=
  (Tree.find? S p).getD ""

/-- One iteration of the `generate_patch` loop: the hunk contributed by path
`p`, if any. A path absent from the target is skipped, identical contents
are skipped, and the diff tool's stdout is kept only when its exit code
is 1. -/
def hunkFor (diffO : DiffOracle) (S T : Tree) (p : String) : Option String :=
  match Tree.find? T p with
  | none => none
  | some tc =>
    let sc := sourceContent S p
    if sc = tc then none
    else
      let r := diffO p sc tc
      if r.exitCode = 1 then some r.stdout else none

/-- `generate_patch`: resolve the base commit (raising on failure), collect
the per-file hunks in the order the files were given, and return either the
empty document or the serialized header followed by the hunks joined with
newlines. -/
def generate_patch (revProc : ProcResult) (today : String) (diffO : DiffOracle)
    (S T : Tree) (files : List String) : Except String String :=
  match get_current_commit revProc with
  | .error e => .error e
  | .ok base =>
    let header : PatchHeader := { base_commit := base, generated := today }
    let patches := files.filterMap (hunkFor diffO S T)
    if patches.isEmpty then .ok ""
    else .ok (header.toText ++ String.intercalate "\n" patches)

/-- The patch-tool oracle: `patch -p1 --forward [--dry-run]` run in the
target root with the patch body on stdin; the result may depend on the
current target tree. -/
def PatchOracle := String → Bool → Tree → ProcResult

/-- The patch tool's effect on the target tree when run without `--dry-run`
(applied hunks, including partial application on failure). -/
def PatchEffect := String → Tree → Tree

/-- `apply_patch`, with the ambient filesystem made explicit: takes the
target tree and returns `(success, message, new tree)`. A blank patch and a
comments-only patch succeed without invoking the tool; otherwise the tool
runs, mutating the tree exactly when `dry_run` is false. -/
def apply_patch (patchProc : PatchOracle) (patchFx : PatchEffect)
    (T : Tree) (patch_content : String) (dry_run : Bool) : Bool × String × Tree :=
  if isBlank patch_content then (true, "No patch to apply", T)
  else
    let lines := splitNl patch_content.data
    let patch_body : String := ⟨joinNl (lines.filter (fun l => !(l.head? == some '#')))⟩
    if isBlank patch_body then (true, "No patch to apply (comments only)", T)
    else
      let r := patchProc patch_body dry_run T
      let T' := if dry_run then T else patchFx patch_body T
      if r.exitCode = 0 then (true, r.stdout, T')
      else (false, "Patch failed:\n" ++ r.stdout ++ "\n" ++ r.stderr, T')

/-- The fixed overlay-artifact path inside the target repository. -/
def overlayPath : String := ".allhands.patch"

/-- `read_patch_file`: the artifact's content, or `""` when it does not exist. -/
def read_patch_file (T : Tree) : String :=
  (Tree.find? T overlayPath).getD ""

/-- `write_patch_file`: persist non-blank content, delete the artifact on
blank content (no-op when already absent). -/
def write_patch_file (T : Tree) (content : String) : Tree :=
  if !isBlank content then Tree.insert T overlayPath content
  else if (Tree.find? T overlayPath).isSome then Tree.erase T overlayPath
  else T

/-- `get_patch_base_commit`: base commit of the stored overlay's header,
when the overlay exists and its header parses. -/
def get_patch_base_commit (T : Tree) : Option String :=
  let content := read_patch_file T
  if content ≠ "" then (PatchHeader.parse content).map PatchHeader.base_commit
  else none

/-! ## `update.py`: staged-file query and the update orchestration -/

/-- `get_staged_files`: `git diff --cached --name-only`, whose process result
is supplied as `r`. A non-zero exit yields the empty set; otherwise the
stripped stdout is split into lines (empty output yields the empty set). -/
def get_staged_files (r : ProcResult) : List String :=
  if r.exitCode ≠ 0 then []
  else if pyStrip r.stdout = "" then []
  else (splitNl (pyStrip r.stdout).data).map (fun l => (⟨l⟩ : String))

/-- The environment of one `cmd_update` run: filesystem preconditions,
the manifest's distributable set, the source tree, and every external
process as an oracle. -/
structure Env where
  /-- `(target_root / ".git").exists()` -/
  gitRepo : Bool
  /-- `(allhands_root / ".allhands-manifest.json").exists()` -/
  manifestOk : Bool
  /-- result of the `git diff --cached --name-only` process in the target -/
  stagedProc : ProcResult
  /-- `manifest.get_distributable_files()`, as relative path strings -/
  dist : List String
  /-- the allhands source tree -/
  S : Tree
  /-- result of `git rev-parse HEAD` in the source root -/
  revProc : ProcResult
  /-- `datetime.now().strftime("%Y-%m-%d")` -/
  today : String
  /-- the diff tool -/
  diffO : DiffOracle
  /-- the patch tool's exit behaviour -/
  patchProc : PatchOracle
  /-- the patch tool's effect on the target tree (non-dry runs) -/
  patchFx : PatchEffect
  /-- `auto_yes or input("Delete these from target? [y/N]: ") == "y"` -/
  confirmDel : Bool

/-- `staged & managed_paths`: the staged paths that are also managed. -/
def conflictsOf (E : Env) : List String :=
  (get_staged_files E.stagedProc).filter (fun s => E.dist.contains s)

/-- `sorted(distributable)`. -/
def sortedDist (dist : List String) : List String :=
  dist.insertionSort (· ≤ ·)

/-- One iteration of the copy loop: copy the source file over the target
when the source exists and the contents differ or the target is missing. -/
def copyOne (S : Tree) (T : Tree) (p : String) : Tree :=
  match Tree.find? S p with
  | none => T
  | some sc =>
    match Tree.find? T p with
    | some tc => if sc ≠ tc then Tree.insert T p sc else T
    | none => Tree.insert T p sc

/-- Phase 3, the copy loop over `sorted(distributable)`. -/
def copyPhase (S : Tree) (dist : List String) (T : Tree) : Tree :=
  (sortedDist dist).foldl (copyOne S) T

/-- The paths recorded in `deleted_in_source` during the copy loop: source
copy gone, target copy present. (Each loop iteration writes only its own
path, so the recorded flags coincide with this filter over the phase's
input tree.) -/
def deleted_in_source (S : Tree) (dist : List String) (T : Tree) : List String :=
  (sortedDist dist).filter (fun p => (Tree.find? S p).isNone && (Tree.find? T p).isSome)

/-- Phase 4: when some paths were flagged and deletion is confirmed
(`auto_yes` or an interactive `y`), unlink each flagged path that exists. -/
def deletePhase (flagged : List String) (confirm : Bool) (T : Tree) : Tree :=
  if flagged.isEmpty then T
  else if confirm then
    flagged.foldl (fun t p => if (Tree.find? t p).isSome then Tree.erase t p else t) T
  else T

/-- Phases 3 and 4 combined: refresh the managed files of the target tree. -/
def refreshTree (E : Env) (T : Tree) : Tree :=
  deletePhase (deleted_in_source E.S E.dist T) E.confirmDel (copyPhase E.S E.dist T)

/-- Phase 5, overlay reapplication: skip a blank stored overlay; otherwise
dry-run first, aborting (`none`) on dry-run failure, and on dry-run success
run the tool for real, proceeding with its resulting tree whether or not
the real run reported success (a real-run failure is only a warning). -/
def reapplyStep (E : Env) (existing : String) (T : Tree) : Option Tree :=
  if isBlank existing then some T
  else
    let dry := apply_patch E.patchProc E.patchFx T existing true
    if dry.1 then some (apply_patch E.patchProc E.patchFx T existing false).2.2
    else none

/-- The `changed_files` test: both copies exist and their bytes differ. -/
def changedAt (S T : Tree) (p : String) : Bool :=
  match Tree.find? S p, Tree.find? T p with
  | some a, some b => a != b
  | _, _ => false

/-- The `changed_files` list of the regeneration phase, in manifest order. -/
def changedFiles (S T : Tree) (dist : List String) : List String :=
  dist.filter (fun p => changedAt S T p)

/-- Phase 6, overlay regeneration: regenerate the overlay over the changed
files (propagating a revision-query failure), or clear it when no file
differs. -/
def regenStep (E : Env) (T : Tree) : Except String (Int × Tree) :=
  let changed := changedFiles E.S T E.dist
  if changed.isEmpty then .ok (0, write_patch_file T "")
  else
    match generate_patch E.revProc E.today E.diffO E.S T changed with
    | .error e => .error e
    | .ok np => .ok (0, write_patch_file T np)

/-- `cmd_update`: the whole update run, returning the exit code and the
final target tree (or a propagated `RuntimeError`). The stored overlay is
read before the copy phase, exactly as in the source (the read of
`get_patch_base_commit` feeds only a progress message and is omitted). -/
def cmd_update (E : Env) (T0 : Tree) : Except String (Int × Tree) :=
  if !E.gitRepo then .ok (1, T0)
  else if !E.manifestOk then .ok (1, T0)
  else if !(conflictsOf E).isEmpty then .ok (1, T0)
  else
    let existing := read_patch_file T0
    let Td := refreshTree E T0
    match reapplyStep E existing Td with
    | none => .ok (1, Td)
    | some Tr => regenStep E Tr

/-! ## Line-splitting lemmas -/

theorem splitNl_ne_nil (l : List Char) : splitNl l ≠ [] := by
  cases l with
  | nil => simp [splitNl]
  | cons c rest =>
    by_cases hc : c = '\n'
    · simp [splitNl, hc]
    · simp only [splitNl, if_neg hc]
      cases splitNl rest <;> simp

theorem splitNl_append (a b : List Char) (h : '\n' ∉ a) :
    splitNl (a ++ '\n' :: b) = a :: splitNl b := by
  induction a with
  | nil => simp [splitNl]
  | cons c a ih =>
    simp only [List.mem_cons, not_or] at h
    obtain ⟨hc, ha⟩ := h
    simp only [List.cons_append, splitNl, if_neg (Ne.symm hc), List.append_eq]
    rw [ih ha]

theorem splitNl_of_no_newline (a : List Char) (h : '\n' ∉ a) :
    splitNl a = [a] := by
  induction a with
  | nil => simp [splitNl]
  | cons c a ih =>
    simp only [List.mem_cons, not_or] at h
    obtain ⟨hc, ha⟩ := h
    simp only [splitNl, if_neg (Ne.symm hc)]
    rw [ih ha]

theorem joinNl_splitNl (l : List Char) : joinNl (splitNl l) = l := by
  induction l with
  | nil => simp [splitNl, joinNl]
  | cons c rest ih =>
    by_cases hc : c = '\n'
    · subst hc
      simp only [splitNl, if_pos rfl]
      have hne := splitNl_ne_nil rest
      cases hsp : splitNl rest with
      | nil => exact absurd hsp hne
      | cons l ls =>
        rw [hsp] at ih
        show '\n' :: joinNl (l :: ls) = '\n' :: rest
        rw [ih]
    · simp only [splitNl, if_neg hc]
      have hne := splitNl_ne_nil rest
      cases hsp : splitNl rest with
      | nil => exact absurd hsp hne
      | cons l ls =>
        rw [hsp] at ih
        cases ls with
        | nil =>
          show c :: l = c :: rest
          rw [show l = rest from ih]
        | cons l2 ls2 =>
          show (c :: l) ++ '\n' :: joinNl (l2 :: ls2) = c :: rest
          have ih2 : l ++ '\n' :: joinNl (l2 :: ls2) = rest := ih
          rw [List.cons_append, ih2]

/-! ## PatchHeader codec lemmas -/

theorem matchBase_mark (v : List Char) :
    matchBase (baseMark ++ v) =
      (if (v.takeWhile isHexCh).isEmpty then none else some ⟨v.takeWhile isHexCh⟩) := by
  have hpre : baseMark.isPrefixOf (baseMark ++ v) := by
    rw [List.isPrefixOf_iff_prefix]; exact List.prefix_append _ _
  simp [matchBase, hpre, List.drop_left]

theorem matchGen_mark (v : List Char) :
    matchGen (genMark ++ v) = (if v.isEmpty then none else some ⟨v⟩) := by
  have hpre : genMark.isPrefixOf (genMark ++ v) := by
    rw [List.isPrefixOf_iff_prefix]; exact List.prefix_append _ _
  simp [matchGen, hpre, List.drop_left]

theorem matchGen_on_base_line (v : List Char) :
    matchGen (baseMark ++ v) = none := by
  unfold matchGen
  rw [if_neg]
  intro hpre
  have h1 : genMark = (baseMark ++ v).take genMark.length := by
    rw [List.isPrefixOf_iff_prefix] at hpre
    exact List.prefix_iff_eq_take.mp hpre
  have h2 : (baseMark ++ v).take genMark.length = baseMark.take genMark.length :=
    List.take_append_of_le_length (by decide)
  rw [h2] at h1
  exact absurd h1 (by decide)

theorem matchBase_on_gen_line (v : List Char) :
    matchBase (genMark ++ v) = none := by
  unfold matchBase
  rw [if_neg]
  intro hpre
  have h1 : baseMark = (genMark ++ v).take baseMark.length := by
    rw [List.isPrefixOf_iff_prefix] at hpre
    exact List.prefix_iff_eq_take.mp hpre
  have h2 : baseMark.take genMark.length =
      ((genMark ++ v).take baseMark.length).take genMark.length := by rw [← h1]
  rw [List.take_take, List.take_append_of_le_length (by decide)] at h2
  have h3 : min genMark.length baseMark.length = genMark.length := by decide
  rw [h3, List.take_length] at h2
  exact absurd h2 (by decide)

theorem isHexCh_ne_newline (c : Char) (h : isHexCh c = true) : c ≠ '\n' := by
  rintro rfl
  exact absurd h (by decide)

/-- The serialized header splits into exactly four lines: base line,
generated line, and two empty lines. -/
theorem toText_lines (h : PatchHeader)
    (hhex : ∀ c ∈ h.base_commit.data, isHexCh c)
    (hg : '\n' ∉ h.generated.data) :
    splitNl (PatchHeader.toText h).data =
      [baseMark ++ h.base_commit.data, genMark ++ h.generated.data, [], []] := by
  have hdata : (PatchHeader.toText h).data =
      (baseMark ++ h.base_commit.data) ++
        '\n' :: ((genMark ++ h.generated.data) ++ '\n' :: ['\n']) := by
    simp [PatchHeader.toText, String.data_append, baseMark, genMark, List.append_assoc]
  have hb : '\n' ∉ baseMark ++ h.base_commit.data := by
    intro hmem
    rcases List.mem_append.mp hmem with hmem | hmem
    · exact absurd hmem (by decide)
    · exact isHexCh_ne_newline _ (hhex _ hmem) rfl
  have hgl : '\n' ∉ genMark ++ h.generated.data := by
    intro hmem
    rcases List.mem_append.mp hmem with hmem | hmem
    · exact absurd hmem (by decide)
    · exact hg hmem
  rw [hdata, splitNl_append _ _ hb, splitNl_append _ _ hgl]
  simp [splitNl]

theorem data_ne_nil_of_ne_empty (s : String) (h : s ≠ "") : s.data ≠ [] := by
  intro hd
  apply h
  cases s with
  | mk d => cases hd; rfl

/-! ## Claim C2: header round trip -/

/-- C2 (counterexample): the claim quantifies over every header with
non-empty `base_commit`, but the base-commit pattern only accepts
`[a-f0-9]+` values, so a header whose commit is the non-empty string `"Z"`
serializes to text that does not parse back: `parse(to_string(h)) ≠ h`. -/
theorem parse_toText_fails_on_nonhex :
    (⟨"Z", ""⟩ : PatchHeader).base_commit ≠ "" ∧
      PatchHeader.parse (PatchHeader.toText ⟨"Z", ""⟩) ≠ some ⟨"Z", ""⟩ := by
  decide

/-- C2 (amended): for every header whose `base_commit` is a non-empty string
of lowercase-hex characters and whose `generated` field contains no newline,
parsing the serialized form recovers the same header:
`parse(to_string(h)) = h`. -/
theorem parse_toText_roundtrip (h : PatchHeader)
    (hne : h.base_commit ≠ "")
    (hhex : ∀ c ∈ h.base_commit.data, isHexCh c)
    (hg : '\n' ∉ h.generated.data) :
    PatchHeader.parse h.toText = some h := by
  unfold PatchHeader.parse
  rw [toText_lines h hhex hg]
  have hb : matchBase (baseMark ++ h.base_commit.data) = some h.base_commit := by
    rw [matchBase_mark, List.takeWhile_eq_self_iff.mpr hhex, if_neg]
    intro hemp
    exact data_ne_nil_of_ne_empty _ hne (List.isEmpty_iff.mp hemp)
  have hg1 : matchGen (baseMark ++ h.base_commit.data) = none :=
    matchGen_on_base_line _
  have hnilb : matchGen ([] : List Char) = none := by decide
  by_cases hgen : h.generated = ""
  · have hg2 : matchGen genMark = none := by decide
    cases h with
    | mk b g =>
      simp only at hgen
      subst hgen
      simp_all [List.findSome?_cons]
  · have hg2 : matchGen (genMark ++ h.generated.data) = some h.generated := by
      rw [matchGen_mark, if_neg]
      intro hemp
      exact data_ne_nil_of_ne_empty _ hgen (List.isEmpty_iff.mp hemp)
    simp [List.findSome?_cons, hb, hg1, hg2]

/-! ## Claim C10: base-commit value recognition -/

/-- C10 (counterexample): the claim says any base-commit value containing a
character outside `[a-f0-9]` makes `parse` return absent, but the unanchored
group just captures the maximal hex prefix: on the value `abcXYZ` parse
returns a header with `base_commit = "abc"`, not absent. -/
theorem parse_keeps_hex_prefix_counterexample :
    PatchHeader.parse "# claude-all-hands base: abcXYZ\n" ≠ none ∧
      PatchHeader.parse "# claude-all-hands base: abcXYZ\n" = some ⟨"abc", ""⟩ := by
  decide

/-- C10 (amended): on a single base-commit line, `parse` returns absent
exactly when the value's maximal `[a-f0-9]` prefix is empty; otherwise it
captures that maximal hex prefix (even when the value contains further
non-hex characters), and `generated` defaults to the empty string. -/
theorem parse_base_line (v : String) (hv : '\n' ∉ v.data) :
    PatchHeader.parse ("# claude-all-hands base: " ++ v ++ "\n") =
      (if (v.data.takeWhile isHexCh).isEmpty then none
       else some ⟨⟨v.data.takeWhile isHexCh⟩, ""⟩) := by
  have hdata : ("# claude-all-hands base: " ++ v ++ "\n").data =
      (baseMark ++ v.data) ++ '\n' :: [] := by
    simp [String.data_append, baseMark, List.append_assoc]
  have hb : '\n' ∉ baseMark ++ v.data := by
    intro hmem
    rcases List.mem_append.mp hmem with hmem | hmem
    · exact absurd hmem (by decide)
    · exact hv hmem
  unfold PatchHeader.parse
  rw [hdata, splitNl_append _ _ hb]
  have hnilb : matchBase ([] : List Char) = none := by decide
  have hnilg : matchGen ([] : List Char) = none := by decide
  by_cases hemp : (v.data.takeWhile isHexCh).isEmpty
  · have h1 : matchBase (baseMark ++ v.data) = none := by
      rw [matchBase_mark, if_pos hemp]
    simp [splitNl, List.findSome?_cons, h1, hnilb, hemp]
  · have h1 : matchBase (baseMark ++ v.data) = some ⟨v.data.takeWhile isHexCh⟩ := by
      rw [matchBase_mark, if_neg hemp]
    have h2 : matchGen (baseMark ++ v.data) = none := matchGen_on_base_line _
    simp [splitNl, List.findSome?_cons, h1, h2, hnilg, hemp]

theorem parse_toText_roundtrip_witness :
    PatchHeader.parse (PatchHeader.toText ⟨"abc1234", "2024-01-02"⟩) =
      some ⟨"abc1234", "2024-01-02"⟩ :=
  parse_toText_roundtrip ⟨"abc1234", "2024-01-02"⟩ (by decide) (by decide) (by decide)

theorem parse_base_line_witness :
    PatchHeader.parse ("# claude-all-hands base: " ++ "abcXYZ" ++ "\n") =
      (if ("abcXYZ".data.takeWhile isHexCh).isEmpty then none
       else some ⟨⟨"abcXYZ".data.takeWhile isHexCh⟩, ""⟩) :=
  parse_base_line "abcXYZ" (by decide)

/-! ## Claim C8: overlay artifact existence -/

theorem find?_erase_self (T : Tree) (p : String) :
    Tree.find? (Tree.erase T p) p = none := by
  induction T with
  | nil => rfl
  | cons e t ih =>
    obtain ⟨q, c⟩ := e
    by_cases hq : q = p
    · simpa [Tree.erase, hq] using ih
    · simpa [Tree.erase, Tree.find?, hq] using ih

theorem find?_erase_ne (T : Tree) (p q : String) (h : q ≠ p) :
    Tree.find? (Tree.erase T p) q = Tree.find? T q := by
  induction T with
  | nil => rfl
  | cons e t ih =>
    obtain ⟨r, c⟩ := e
    by_cases hr : r = p
    · subst hr
      simpa [Tree.erase, Tree.find?, Ne.symm h] using ih
    · by_cases hrq : r = q
      · simp [Tree.erase, Tree.find?, hr, hrq, h]
      · simpa [Tree.erase, Tree.find?, hr, hrq] using ih

theorem find?_insert_self (T : Tree) (p c : String) :
    Tree.find? (Tree.insert T p c) p = some c := by
  simp [Tree.insert, Tree.find?]

theorem find?_insert_ne (T : Tree) (p c : String) (q : String) (h : q ≠ p) :
    Tree.find? (Tree.insert T p c) q = Tree.find? T q := by
  simp only [Tree.insert, Tree.find?, if_neg (Ne.symm h)]
  exact find?_erase_ne T p q h

theorem ne_empty_of_not_blank (s : String) (h : isBlank s = false) : s ≠ "" := by
  rintro rfl
  exact absurd h (by decide)

/-- C8: after `write(targetRoot, text)` the overlay artifact exists iff
`text` is non-blank (a blank write deletes any existing artifact), and
`read` returns the empty string exactly when the artifact does not exist. -/
theorem write_patch_file_existence (T : Tree) (text : String) :
    ((Tree.find? (write_patch_file T text) overlayPath).isSome ↔ isBlank text = false) ∧
      (read_patch_file (write_patch_file T text) = "" ↔
        (Tree.find? (write_patch_file T text) overlayPath).isNone) := by
  unfold write_patch_file
  by_cases hb : isBlank text
  · simp only [hb, Bool.not_true, Bool.false_eq_true, if_false]
    by_cases hex : (Tree.find? T overlayPath).isSome
    · simp [hex, find?_erase_self, read_patch_file, hb]
    · have hnone : Tree.find? T overlayPath = none := by
        cases hfind : Tree.find? T overlayPath
        · rfl
        · rw [hfind] at hex
          exact absurd rfl hex
      simp [hex, hnone, read_patch_file, hb]
  · have hb2 : isBlank text = false := by
      cases hval : isBlank text
      · rfl
      · exact absurd hval hb
    simp [hb2, find?_insert_self, read_patch_file,
      ne_empty_of_not_blank text hb2]

/-! ## Claim C3: apply on blank and comments-only input -/

/-- C3 (counterexample): for input consisting solely of lines starting with
`#`, `apply` succeeds but its message is
"No patch to apply (comments only)", not "No patch to apply" as claimed. -/
theorem apply_patch_comments_message :
    (apply_patch (fun _ _ _ => ⟨0, "", ""⟩) (fun _ t => t) ([] : Tree) "#x" false).2.1 ≠
      "No patch to apply" := by
  decide

/-- C3 (amended): `apply` succeeds without invoking the patch tool and
without touching the target tree both on blank input (message
"No patch to apply") and on input consisting solely of lines starting with
`#` (message "No patch to apply (comments only)"); the conclusion holds for
every tool oracle, so no tool behaviour can influence it. -/
theorem apply_patch_no_op (patchProc : PatchOracle) (patchFx : PatchEffect)
    (T : Tree) (s : String) (d : Bool) :
    (isBlank s = true → apply_patch patchProc patchFx T s d = (true, "No patch to apply", T)) ∧
      ((∀ l ∈ splitNl s.data, l.head? = some '#') →
        apply_patch patchProc patchFx T s d = (true, "No patch to apply (comments only)", T)) := by
  constructor
  · intro hb
    simp [apply_patch, hb]
  · intro hall
    have hhash : '#' ∈ s.data := by
      cases hsp : splitNl s.data with
      | nil => exact absurd hsp (splitNl_ne_nil _)
      | cons l0 rest =>
        have h0 : l0.head? = some '#' := hall l0 (by rw [hsp]; exact List.mem_cons_self _ _)
        have hdata : joinNl (l0 :: rest) = s.data := by rw [← hsp, joinNl_splitNl]
        cases l0 with
        | nil => simp at h0
        | cons c t =>
          have hc : c = '#' := by simpa using h0
          subst hc
          rw [← hdata]
          cases rest with
          | nil => exact List.mem_cons_self _ _
          | cons r rs =>
            show '#' ∈ ('#' :: t) ++ '\n' :: joinNl (r :: rs)
            exact List.mem_append.mpr (Or.inl (List.mem_cons_self _ _))
    have hblank : isBlank s = false := by
      apply List.all_eq_false.mpr
      exact ⟨'#', hhash, by decide⟩
    have hfilter : (splitNl s.data).filter (fun l => !(l.head? == some '#')) = [] := by
      apply List.filter_eq_nil_iff.mpr
      intro l hl
      rw [hall l hl]
      decide
    have hempty : isBlank ⟨joinNl []⟩ = true := by decide
    simp [apply_patch, hblank, hfilter, hempty]

theorem apply_patch_no_op_witness :
    apply_patch (fun _ _ _ => ⟨0, "", ""⟩) (fun _ t => t) ([] : Tree) " " true =
        (true, "No patch to apply", ([] : Tree)) ∧
      apply_patch (fun _ _ _ => ⟨0, "", ""⟩) (fun _ t => t) ([] : Tree) "#x" true =
        (true, "No patch to apply (comments only)", ([] : Tree)) :=
  ⟨(apply_patch_no_op _ _ _ _ _).1 (by decide),
   (apply_patch_no_op _ _ _ _ _).2 (by decide)⟩

/-! ## Claim C5: diff exit codes other than 1 -/

/-- C5 (counterexample): the claim says a diff exit code other than 1
propagates an error, but on a differing file whose diff tool exits 2 the
generator silently drops the hunk and returns success with the empty
document: nothing is propagated. -/
theorem generate_patch_swallows_diff_error :
    generate_patch ⟨0, "abc1234567", ""⟩ "2024-01-02"
        (fun _ _ _ => ⟨2, "boom", "trouble"⟩)
        [("a", "x")] [("a", "y")] ["a"] = Except.ok "" := by
  rfl

/-- C5 (amended): exit code 1 is the success path whose output is kept as
the file's hunk, but any other diff exit code is silently discarded: the
file contributes no hunk and, as long as the revision query succeeds,
`generate` still returns success. -/
theorem hunkFor_drops_other_exit_codes (diffO : DiffOracle) (S T : Tree)
    (p tc : String)
    (ht : Tree.find? T p = some tc)
    (hne : sourceContent S p ≠ tc)
    (hrc : (diffO p (sourceContent S p) tc).exitCode ≠ 1) :
    hunkFor diffO S T p = none ∧
      ∀ (revProc : ProcResult) (today : String) (files : List String),
        revProc.exitCode = 0 →
        ∃ out, generate_patch revProc today diffO S T files = Except.ok out := by
  constructor
  · simp [hunkFor, ht, hne, hrc]
  · intro revProc today files hrev
    unfold generate_patch get_current_commit
    rw [if_neg (fun hh => hh hrev)]
    by_cases hp : (files.filterMap (hunkFor diffO S T)).isEmpty
    · exact ⟨"", by simp [hp]⟩
    · have hp2 : (files.filterMap (hunkFor diffO S T)).isEmpty = false := by
        cases hval : (files.filterMap (hunkFor diffO S T)).isEmpty
        · rfl
        · exact absurd hval hp
      refine ⟨(PatchHeader.toText ⟨(pyStrip revProc.stdout).take 7, today⟩) ++
        String.intercalate "\n" (files.filterMap (hunkFor diffO S T)), ?_⟩
      simp [hp2, PatchHeader.toText]

theorem hunkFor_drops_other_exit_codes_witness :
    hunkFor (fun _ _ _ => ⟨2, "boom", "trouble"⟩) [("a", "x")] [("a", "y")] "a" = none ∧
      ∀ (revProc : ProcResult) (today : String) (files : List String),
        revProc.exitCode = 0 →
        ∃ out, generate_patch revProc today (fun _ _ _ => ⟨2, "boom", "trouble"⟩)
          [("a", "x")] [("a", "y")] files = Except.ok out :=
  hunkFor_drops_other_exit_codes (fun _ _ _ => ⟨2, "boom", "trouble"⟩)
    [("a", "x")] [("a", "y")] "a" "y" (by decide) (by decide) (by decide)

/-! ## Claim C7: structure of the generated document -/

/-- C7: in `generate`, a path whose source and target contents are identical
contributes no hunk, a path absent from the target contributes no hunk,
and the result is the empty document (no header) when no path contributes a
hunk, or the header (current short revision, current date) followed by the
hunks in the order the paths were given. -/
theorem generate_patch_document (revProc : ProcResult) (today : String)
    (diffO : DiffOracle) (S T : Tree) (files : List String)
    (hrev : revProc.exitCode = 0) :
    (∀ p, Tree.find? T p = none → hunkFor diffO S T p = none) ∧
      (∀ p tc, Tree.find? T p = some tc → sourceContent S p = tc →
        hunkFor diffO S T p = none) ∧
      (files.filterMap (hunkFor diffO S T) = [] →
        generate_patch revProc today diffO S T files = Except.ok "") ∧
      (files.filterMap (hunkFor diffO S T) ≠ [] →
        generate_patch revProc today diffO S T files =
          Except.ok
            ((PatchHeader.toText ⟨(pyStrip revProc.stdout).take 7, today⟩) ++
              String.intercalate "\n" (files.filterMap (hunkFor diffO S T)))) := by
  refine ⟨?_, ?_, ?_, ?_⟩
  · intro p hp
    simp [hunkFor, hp]
  · intro p tc hp heq
    simp [hunkFor, hp, heq]
  · intro hempty
    unfold generate_patch get_current_commit
    rw [if_neg (fun hh => hh hrev)]
    simp [hempty]
  · intro hnonempty
    unfold generate_patch get_current_commit
    rw [if_neg (fun hh => hh hrev)]
    have hp : (files.filterMap (hunkFor diffO S T)).isEmpty = false := by
      cases hfm : files.filterMap (hunkFor diffO S T)
      · exact absurd hfm hnonempty
      · rfl
    simp [hp]

/-- Witness for C7, following the spec's worked example: `a.txt` differs
between source and target, `b.txt` is identical, so the document is the
header for the short revision `abc1234` followed by exactly the one hunk
the diff tool produced for `a.txt`. -/
theorem generate_patch_document_witness :
    generate_patch ⟨0, "abc1234567", ""⟩ "2024-01-02"
        (fun p _ _ => ⟨1, "HUNK:" ++ p, ""⟩)
        [("a.txt", "v2"), ("b.txt", "s")] [("a.txt", "v1"), ("b.txt", "s")]
        ["a.txt", "b.txt"] =
      Except.ok
        ((PatchHeader.toText ⟨"abc1234", "2024-01-02"⟩) ++
          String.intercalate "\n" ["HUNK:a.txt"]) := by
  have h := (generate_patch_document ⟨0, "abc1234567", ""⟩ "2024-01-02"
    (fun p _ _ => ⟨1, "HUNK:" ++ p, ""⟩)
    [("a.txt", "v2"), ("b.txt", "s")] [("a.txt", "v1"), ("b.txt", "s")]
    ["a.txt", "b.txt"] (by decide)).2.2.2 (by decide)
  rw [h]
  rfl

/-! ## Frame lemmas for the refresh phases -/

theorem find?_copyOne_ne (S T : Tree) (q p : String) (h : p ≠ q) :
    Tree.find? (copyOne S T q) p = Tree.find? T p := by
  unfold copyOne
  cases Tree.find? S q with
  | none => rfl
  | some sc =>
    cases Tree.find? T q with
    | none => exact find?_insert_ne T q sc p h
    | some tc =>
      by_cases hd : sc ≠ tc
      · simp only [if_pos hd]
        exact find?_insert_ne T q sc p h
      · simp only [if_neg hd]

theorem find?_copy_foldl (S : Tree) (l : List String) (T : Tree) (p : String)
    (hp : p ∉ l) :
    Tree.find? (l.foldl (copyOne S) T) p = Tree.find? T p := by
  induction l generalizing T with
  | nil => rfl
  | cons q l ih =>
    simp only [List.mem_cons, not_or] at hp
    rw [List.foldl_cons, ih _ hp.2, find?_copyOne_ne S T q p hp.1]

theorem find?_delete_foldl (l : List String) (T : Tree) (p : String)
    (hp : p ∉ l) :
    Tree.find?
      (l.foldl (fun t q => if (Tree.find? t q).isSome then Tree.erase t q else t) T) p =
      Tree.find? T p := by
  induction l generalizing T with
  | nil => rfl
  | cons q l ih =>
    simp only [List.mem_cons, not_or] at hp
    rw [List.foldl_cons, ih _ hp.2]
    by_cases hs : (Tree.find? T q).isSome
    · simp only [if_pos hs]
      exact find?_erase_ne T q p hp.1
    · simp only [if_neg hs]

theorem mem_sortedDist (dist : List String) (p : String) :
    p ∈ sortedDist dist ↔ p ∈ dist :=
  (List.perm_insertionSort _ dist).mem_iff

theorem find?_deletePhase_not_mem (flagged : List String) (confirm : Bool)
    (T : Tree) (p : String) (hp : p ∉ flagged) :
    Tree.find? (deletePhase flagged confirm T) p = Tree.find? T p := by
  unfold deletePhase
  by_cases he : flagged.isEmpty
  · simp [he]
  · cases confirm
    · simp [he]
    · simp only [he, if_false, if_true, Bool.false_eq_true]
      exact find?_delete_foldl flagged T p hp

theorem find?_refreshTree_not_mem (E : Env) (T : Tree) (p : String)
    (hp : p ∉ E.dist) :
    Tree.find? (refreshTree E T) p = Tree.find? T p := by
  have hps : p ∉ sortedDist E.dist := fun hmem => hp ((mem_sortedDist _ _).mp hmem)
  have hflag : p ∉ deleted_in_source E.S E.dist T := by
    intro hmem
    exact hps (List.mem_of_mem_filter hmem)
  unfold refreshTree
  rw [find?_deletePhase_not_mem _ _ _ _ hflag]
  exact find?_copy_foldl E.S _ T p hps

/-! ## Claim C1: staged-conflict invariant -/

/-- C1: whenever some staged path is also managed, the update returns
failure (exit code 1) and the returned target tree is the input tree
itself: no file was copied, deleted or overwritten and the overlay
artifact (a tree entry) is untouched. -/
theorem cmd_update_conflict_unchanged (E : Env) (T0 : Tree)
    (h : ∃ s, s ∈ get_staged_files E.stagedProc ∧ s ∈ E.dist) :
    cmd_update E T0 = Except.ok (1, T0) := by
  obtain ⟨s, hs1, hs2⟩ := h
  have hmem : s ∈ conflictsOf E :=
    List.mem_filter.mpr ⟨hs1, by simpa using hs2⟩
  have hconf : (conflictsOf E).isEmpty = false := by
    cases hc : conflictsOf E with
    | nil => rw [hc] at hmem; cases hmem
    | cons a l => rfl
  cases hgit : E.gitRepo
  · simp [cmd_update, hgit]
  · cases hman : E.manifestOk
    · simp [cmd_update, hgit, hman]
    · simp [cmd_update, hgit, hman, hconf]

/-- Concrete environment for the C1 witness: `f` is staged and managed. -/
def envConflict : Env :=
  { gitRepo := true,
    manifestOk := true,
    stagedProc := ⟨0, "f\n", ""⟩,
    dist := ["f"],
    S := [("f", "x")],
    revProc := ⟨0, "abc1234567", ""⟩,
    today := "2024-01-02",
    diffO := fun _ _ _ => ⟨1, "HUNK", ""⟩,
    patchProc := fun _ _ _ => ⟨0, "", ""⟩,
    patchFx := fun _ t => t,
    confirmDel := true }

theorem cmd_update_conflict_unchanged_witness :
    cmd_update envConflict [("f", "y")] = Except.ok (1, [("f", "y")]) :=
  cmd_update_conflict_unchanged envConflict [("f", "y")] ⟨"f", by decide, by decide⟩

/-! ## Claim C4: staged-path query failure -/

/-- Concrete environment whose staged-path query fails (exit 1). -/
def envStagedFail : Env :=
  { gitRepo := true,
    manifestOk := true,
    stagedProc := ⟨1, "", "boom"⟩,
    dist := [],
    S := [],
    revProc := ⟨0, "", ""⟩,
    today := "",
    diffO := fun _ _ _ => ⟨1, "", ""⟩,
    patchProc := fun _ _ _ => ⟨0, "", ""⟩,
    patchFx := fun _ t => t,
    confirmDel := true }

/-- C4 (counterexample): the staged-path query's process exits non-zero,
yet the update does not fail with a `VcsError`: it runs to completion and
returns success (exit code 0), silently treating the failure as "nothing
staged". -/
theorem update_succeeds_despite_staged_failure :
    envStagedFail.stagedProc.exitCode ≠ 0 ∧
      cmd_update envStagedFail [] = Except.ok (0, ([] : Tree)) := by
  constructor
  · decide
  · rfl

/-- C4 (amended): when the staged-path query's process exits non-zero,
`get_staged_files` returns the empty set, so the update behaves exactly as
if nothing were staged; the failure is silently ignored, never fatal. -/
theorem get_staged_files_failure_ignored (r : ProcResult) (h : r.exitCode ≠ 0) :
    get_staged_files r = [] ∧
      ∀ (E : Env) (T0 : Tree), E.stagedProc = r →
        cmd_update E T0 = cmd_update { E with stagedProc := ⟨0, "", ""⟩ } T0 := by
  constructor
  · simp [get_staged_files, h]
  · intro E T0 hE
    have h1 : conflictsOf E = [] := by
      unfold conflictsOf
      rw [hE]
      simp [get_staged_files, h]
    have h2 : conflictsOf { E with stagedProc := ⟨0, "", ""⟩ } = [] := by
      unfold conflictsOf
      rfl
    unfold cmd_update
    rw [h1, h2]
    rfl

theorem get_staged_files_failure_ignored_witness :
    get_staged_files ⟨1, "", "boom"⟩ = [] ∧
      cmd_update envStagedFail [] =
        cmd_update { envStagedFail with stagedProc := ⟨0, "", ""⟩ } [] :=
  ⟨(get_staged_files_failure_ignored ⟨1, "", "boom"⟩ (by decide)).1,
   (get_staged_files_failure_ignored ⟨1, "", "boom"⟩ (by decide)).2 envStagedFail [] rfl⟩

/-! ## Claim C6: dry-run failure aborts with the overlay untouched -/

/-- C6: when the run reaches overlay reapplication (preconditions pass, no
conflicts), the stored overlay is non-blank, and the dry-run application
fails, the whole update returns failure (exit code 1) and the overlay
artifact's content is exactly what it was before the call; only the
refresh-phase mutations of managed files remain. The overlay path must not
itself be a managed path, which the copy loop could otherwise overwrite. -/
theorem dry_run_failure_aborts (E : Env) (T0 : Tree)
    (hgit : E.gitRepo = true) (hman : E.manifestOk = true)
    (hconf : conflictsOf E = [])
    (hover : overlayPath ∉ E.dist)
    (hnb : isBlank (read_patch_file T0) = false)
    (hdry : (apply_patch E.patchProc E.patchFx (refreshTree E T0)
      (read_patch_file T0) true).1 = false) :
    cmd_update E T0 = Except.ok (1, refreshTree E T0) ∧
      Tree.find? (refreshTree E T0) overlayPath = Tree.find? T0 overlayPath := by
  constructor
  · have hre : reapplyStep E (read_patch_file T0) (refreshTree E T0) = none := by
      simp [reapplyStep, hnb, hdry]
    simp [cmd_update, hgit, hman, hconf, hre]
  · exact find?_refreshTree_not_mem E T0 overlayPath hover

/-- Concrete environment for the C6 witness: the patch tool always reports
failure, so the dry run fails. -/
def envDryFail : Env :=
  { gitRepo := true,
    manifestOk := true,
    stagedProc := ⟨0, "", ""⟩,
    dist := ["f"],
    S := [("f", "x")],
    revProc := ⟨0, "abc1234567", ""⟩,
    today := "2024-01-02",
    diffO := fun _ _ _ => ⟨1, "HUNK", ""⟩,
    patchProc := fun _ _ _ => ⟨1, "", "conflict"⟩,
    patchFx := fun _ t => t,
    confirmDel := true }

/-- Concrete target tree for the C6 witness: one customized managed file
and a non-blank stored overlay. -/
def treeDryFail : Tree :=
  [("f", "y"), (".allhands.patch", "# claude-all-hands base: abc1234\n\nbody")]

theorem dry_run_failure_aborts_witness :
    cmd_update envDryFail treeDryFail = Except.ok (1, refreshTree envDryFail treeDryFail) ∧
      Tree.find? (refreshTree envDryFail treeDryFail) overlayPath =
        Tree.find? treeDryFail overlayPath :=
  dry_run_failure_aborts envDryFail treeDryFail rfl rfl (by decide) (by decide)
    (by decide) (by decide)

/-! ## Helper lemmas for idempotence (C9) -/

theorem apply_patch_of_blank (patchProc : PatchOracle) (patchFx : PatchEffect)
    (T : Tree) (s : String) (d : Bool) (h : isBlank s = true) :
    apply_patch patchProc patchFx T s d = (true, "No patch to apply", T) := by
  simp [apply_patch, h]

theorem find?_write_ne (T : Tree) (c : String) (p : String) (hp : p ≠ overlayPath) :
    Tree.find? (write_patch_file T c) p = Tree.find? T p := by
  unfold write_patch_file
  by_cases hb : isBlank c
  · simp only [hb, Bool.not_true, Bool.false_eq_true, if_false]
    by_cases hs : (Tree.find? T overlayPath).isSome
    · simp only [if_pos hs]
      exact find?_erase_ne T overlayPath p hp
    · simp only [if_neg hs]
  · have hb2 : isBlank c = false := by
      cases hval : isBlank c
      · rfl
      · exact absurd hval hb
    simp only [hb2, Bool.not_false, if_true]
    exact find?_insert_ne T overlayPath c p hp

theorem find?_write_nonblank (T : Tree) (c : String) (h : isBlank c = false) :
    Tree.find? (write_patch_file T c) overlayPath = some c := by
  simp only [write_patch_file, h, Bool.not_false, if_true]
  exact find?_insert_self T overlayPath c

theorem find?_write_blank (T : Tree) (c : String) (h : isBlank c = true) :
    Tree.find? (write_patch_file T c) overlayPath = none := by
  simp only [write_patch_file, h, Bool.not_true, Bool.false_eq_true, if_false]
  by_cases hs : (Tree.find? T overlayPath).isSome
  · simp only [if_pos hs]
    exact find?_erase_self T overlayPath
  · simp only [if_neg hs]
    cases hfind : Tree.find? T overlayPath
    · rfl
    · rw [hfind] at hs
      exact absurd rfl hs

theorem isBlank_header_append (h : PatchHeader) (s : String) :
    isBlank (PatchHeader.toText h ++ s) = false := rfl

theorem changedAt_eq_true (S T : Tree) (p : String) :
    changedAt S T p = true ↔
      ∃ a b, Tree.find? S p = some a ∧ Tree.find? T p = some b ∧ a ≠ b := by
  unfold changedAt
  cases hS : Tree.find? S p <;> cases hT : Tree.find? T p <;>
    simp [bne_iff_ne]

theorem hunkFor_congr (diffO : DiffOracle) (S T T' : Tree) (p : String)
    (h : Tree.find? T p = Tree.find? T' p) :
    hunkFor diffO S T p = hunkFor diffO S T' p := by
  unfold hunkFor
  rw [h]

theorem filterMap_congr_mem {α β : Type} (f g : α → Option β) (l : List α)
    (h : ∀ a ∈ l, f a = g a) : l.filterMap f = l.filterMap g := by
  induction l with
  | nil => rfl
  | cons a l ih =>
    simp only [List.filterMap_cons, h a (List.mem_cons_self a l)]
    rw [ih (fun b hb => h b (List.mem_cons_of_mem a hb))]

theorem changedFiles_congr (S T T' : Tree) (dist : List String)
    (h : ∀ p ∈ dist, Tree.find? T p = Tree.find? T' p) :
    changedFiles S T dist = changedFiles S T' dist := by
  unfold changedFiles
  refine List.filter_congr ?_
  intro p hp
  unfold changedAt
  rw [h p hp]

theorem generate_patch_congr (revProc : ProcResult) (today : String)
    (diffO : DiffOracle) (S T T' : Tree) (files : List String)
    (h : ∀ p ∈ files, Tree.find? T p = Tree.find? T' p) :
    generate_patch revProc today diffO S T files =
      generate_patch revProc today diffO S T' files := by
  unfold generate_patch
  cases get_current_commit revProc with
  | error e => rfl
  | ok base =>
    rw [filterMap_congr_mem (hunkFor diffO S T) (hunkFor diffO S T') files
      (fun p hp => hunkFor_congr diffO S T T' p (h p hp))]

/-- Inversion of a successful `cmd_update` run. -/
theorem cmd_update_ok_inv (E : Env) (T0 T1 : Tree)
    (h : cmd_update E T0 = Except.ok (0, T1)) :
    E.gitRepo = true ∧ E.manifestOk = true ∧ (conflictsOf E).isEmpty = true ∧
      ∃ Tr, reapplyStep E (read_patch_file T0) (refreshTree E T0) = some Tr ∧
        regenStep E Tr = Except.ok (0, T1) := by
  unfold cmd_update at h
  by_cases hg : E.gitRepo = true
  · rw [hg] at h
    simp only [Bool.not_true, Bool.false_eq_true, if_false] at h
    by_cases hm : E.manifestOk = true
    · rw [hm] at h
      simp only [Bool.not_true, Bool.false_eq_true, if_false] at h
      by_cases hc : (conflictsOf E).isEmpty = true
      · rw [hc] at h
        simp only [Bool.not_true, Bool.false_eq_true, if_false] at h
        refine ⟨hg, hm, hc, ?_⟩
        cases hre : reapplyStep E (read_patch_file T0) (refreshTree E T0) with
        | none =>
          rw [hre] at h
          simp at h
        | some Tr =>
          rw [hre] at h
          exact ⟨Tr, rfl, h⟩
      · have hc2 : E.gitRepo = true ∧ (conflictsOf E).isEmpty = false := by
          cases hval : (conflictsOf E).isEmpty
          · exact ⟨hg, rfl⟩
          · exact absurd hval hc
        rw [hc2.2] at h
        simp at h
    · have hm2 : E.manifestOk = false := by
        cases hval : E.manifestOk
        · rfl
        · exact absurd hval hm
      rw [hm2] at h
      simp at h
  · have hg2 : E.gitRepo = false := by
      cases hval : E.gitRepo
      · rfl
      · exact absurd hval hg
    rw [hg2] at h
    simp at h

/-- Inversion of a successful regeneration phase. -/
theorem regenStep_ok_inv (E : Env) (Tr T1 : Tree)
    (h : regenStep E Tr = Except.ok (0, T1)) :
    (changedFiles E.S Tr E.dist = [] ∧ T1 = write_patch_file Tr "") ∨
      (changedFiles E.S Tr E.dist ≠ [] ∧
        ∃ P, generate_patch E.revProc E.today E.diffO E.S Tr
            (changedFiles E.S Tr E.dist) = Except.ok P ∧
          T1 = write_patch_file Tr P) := by
  unfold regenStep at h
  by_cases hc : (changedFiles E.S Tr E.dist).isEmpty = true
  · left
    rw [if_pos hc] at h
    simp only [Except.ok.injEq, Prod.mk.injEq, true_and] at h
    exact ⟨List.isEmpty_iff.mp hc, h.symm⟩
  · right
    rw [if_neg hc] at h
    have hne : changedFiles E.S Tr E.dist ≠ [] := by
      intro hnil
      exact hc (by simp [hnil])
    refine ⟨hne, ?_⟩
    cases hgen : generate_patch E.revProc E.today E.diffO E.S Tr
        (changedFiles E.S Tr E.dist) with
    | error e =>
      rw [hgen] at h
      cases h
    | ok P =>
      rw [hgen] at h
      simp only [Except.ok.injEq, Prod.mk.injEq, true_and] at h
      exact ⟨P, rfl, h.symm⟩

/-- Inversion of a successful `generate_patch` call. -/
theorem generate_patch_ok_inv (revProc : ProcResult) (today : String)
    (diffO : DiffOracle) (S T : Tree) (files : List String) (P : String)
    (h : generate_patch revProc today diffO S T files = Except.ok P) :
    revProc.exitCode = 0 ∧
      ((files.filterMap (hunkFor diffO S T) = [] ∧ P = "") ∨
        (files.filterMap (hunkFor diffO S T) ≠ [] ∧
          P = PatchHeader.toText ⟨(pyStrip revProc.stdout).take 7, today⟩ ++
            String.intercalate "\n" (files.filterMap (hunkFor diffO S T)))) := by
  unfold generate_patch get_current_commit at h
  by_cases hrev : revProc.exitCode = 0
  · rw [if_neg (fun hh => hh hrev)] at h
    dsimp only at h
    refine ⟨hrev, ?_⟩
    by_cases hp : (files.filterMap (hunkFor diffO S T)).isEmpty = true
    · left
      rw [if_pos hp] at h
      simp only [Except.ok.injEq] at h
      exact ⟨List.isEmpty_iff.mp hp, h.symm⟩
    · right
      rw [if_neg hp] at h
      have hne : files.filterMap (hunkFor diffO S T) ≠ [] := by
        intro hnil
        exact hp (by simp [hnil])
      simp only [Except.ok.injEq] at h
      exact ⟨hne, h.symm⟩
  · rw [if_pos hrev] at h
    cases h

/-! ## Claim C9: idempotence of the update -/

/-- C9: after a successful update producing tree `T1`, running the update
again with nothing changed in between (same environment: same source tree,
manifest, staged set, revision, date and oracles) succeeds and leaves every
path of the target tree — the overlay artifact included — with exactly the
content it had after the first run. The hypotheses state the external-tool
contract the claim presupposes: the overlay path is not itself managed, the
diff tool exits 1 on differing inputs, and reapplying the stored overlay
after the second refresh passes its dry run and restores the tree to `T1`
(for a blank overlay this just says the refresh phase changes nothing). -/
theorem cmd_update_idempotent (E : Env) (T0 T1 : Tree)
    (hrun1 : cmd_update E T0 = Except.ok (0, T1))
    (hover : overlayPath ∉ E.dist)
    (hdiff : ∀ p a b, a ≠ b → (E.diffO p a b).exitCode = 1)
    (hdry2 : (apply_patch E.patchProc E.patchFx (refreshTree E T1)
      (read_patch_file T1) true).1 = true)
    (happ2 : ∀ p, Tree.find? ((apply_patch E.patchProc E.patchFx (refreshTree E T1)
      (read_patch_file T1) false).2.2) p = Tree.find? T1 p) :
    ∃ T2, cmd_update E T1 = Except.ok (0, T2) ∧
      ∀ p, Tree.find? T2 p = Tree.find? T1 p := by
  obtain ⟨hgit, hman, hconf, Tr1, hre1, hregen1⟩ := cmd_update_ok_inv E T0 T1 hrun1
  rcases regenStep_ok_inv E Tr1 T1 hregen1 with ⟨hch1, hT1⟩ | ⟨hch1, P1, hgen1, hT1⟩
  · -- run 1 found no customizations: the overlay is absent after it
    have hT1ne : ∀ p, p ≠ overlayPath → Tree.find? T1 p = Tree.find? Tr1 p := by
      intro p hp
      rw [hT1]
      exact find?_write_ne Tr1 "" p hp
    have hov1 : Tree.find? T1 overlayPath = none := by
      rw [hT1]
      exact find?_write_blank Tr1 "" (by rfl)
    have hread1 : read_patch_file T1 = "" := by
      unfold read_patch_file
      rw [hov1]
      rfl
    have hblank1 : isBlank (read_patch_file T1) = true := by
      rw [hread1]
      rfl
    have happly : apply_patch E.patchProc E.patchFx (refreshTree E T1)
        (read_patch_file T1) false = (true, "No patch to apply", refreshTree E T1) :=
      apply_patch_of_blank _ _ _ _ _ hblank1
    have hTd2 : ∀ p, Tree.find? (refreshTree E T1) p = Tree.find? T1 p := by
      intro p
      have hq := happ2 p
      rwa [happly] at hq
    have hre2 : reapplyStep E (read_patch_file T1) (refreshTree E T1) =
        some (refreshTree E T1) := by
      simp [reapplyStep, hblank1]
    have hch2 : changedFiles E.S (refreshTree E T1) E.dist = [] := by
      rw [changedFiles_congr E.S _ T1 E.dist (fun p _ => hTd2 p),
        changedFiles_congr E.S T1 Tr1 E.dist
          (fun p hp => hT1ne p (fun hpe => hover (hpe ▸ hp)))]
      exact hch1
    have hregen2 : regenStep E (refreshTree E T1) =
        Except.ok (0, write_patch_file (refreshTree E T1) "") := by
      simp only [regenStep]
      rw [hch2]
      rfl
    refine ⟨write_patch_file (refreshTree E T1) "", ?_, ?_⟩
    · simp [cmd_update, hgit, hman, hconf, hre2, hregen2]
    · intro p
      by_cases hp : p = overlayPath
      · subst hp
        rw [find?_write_blank _ "" (by rfl), hov1]
      · rw [find?_write_ne _ _ p hp, hTd2 p]
  · -- run 1 stored a regenerated overlay P1
    obtain ⟨hrev, hgenshape⟩ := generate_patch_ok_inv _ _ _ _ _ _ _ hgen1
    have hpatches :
        (changedFiles E.S Tr1 E.dist).filterMap (hunkFor E.diffO E.S Tr1) ≠ [] := by
      obtain ⟨p, hp⟩ : ∃ p, p ∈ changedFiles E.S Tr1 E.dist := by
        cases hcc : changedFiles E.S Tr1 E.dist with
        | nil => exact absurd hcc hch1
        | cons a t => exact ⟨a, hcc ▸ List.mem_cons_self a t⟩
      have hh := (List.mem_filter.mp hp).2
      obtain ⟨a, b, hSa, hTb, hab⟩ := (changedAt_eq_true _ _ _).mp hh
      have hsome : hunkFor E.diffO E.S Tr1 p = some (E.diffO p a b).stdout := by
        simp [hunkFor, sourceContent, hTb, hSa, hab, hdiff p a b hab]
      intro hnil
      have hnone := List.filterMap_eq_nil_iff.mp hnil p hp
      rw [hsome] at hnone
      cases hnone
    have hP1 : P1 = PatchHeader.toText ⟨(pyStrip E.revProc.stdout).take 7, E.today⟩ ++
        String.intercalate "\n"
          ((changedFiles E.S Tr1 E.dist).filterMap (hunkFor E.diffO E.S Tr1)) := by
      rcases hgenshape with ⟨hnil, _⟩ | ⟨_, hsh⟩
      · exact absurd hnil hpatches
      · exact hsh
    have hP1blank : isBlank P1 = false := by
      rw [hP1]
      exact isBlank_header_append _ _
    have hT1ne : ∀ p, p ≠ overlayPath → Tree.find? T1 p = Tree.find? Tr1 p := by
      intro p hp
      rw [hT1]
      exact find?_write_ne Tr1 P1 p hp
    have hov1 : Tree.find? T1 overlayPath = some P1 := by
      rw [hT1]
      exact find?_write_nonblank Tr1 P1 hP1blank
    have hread1 : read_patch_file T1 = P1 := by
      unfold read_patch_file
      rw [hov1]
      rfl
    have hblank1 : isBlank (read_patch_file T1) = false := by
      rw [hread1]
      exact hP1blank
    have hre2 : reapplyStep E (read_patch_file T1) (refreshTree E T1) =
        some ((apply_patch E.patchProc E.patchFx (refreshTree E T1)
          (read_patch_file T1) false).2.2) := by
      simp [reapplyStep, hblank1, hdry2]
    have hchdist : ∀ p ∈ E.dist, Tree.find? T1 p = Tree.find? Tr1 p :=
      fun p hp => hT1ne p (fun hpe => hover (hpe ▸ hp))
    have hch2 : changedFiles E.S ((apply_patch E.patchProc E.patchFx (refreshTree E T1)
        (read_patch_file T1) false).2.2) E.dist = changedFiles E.S Tr1 E.dist := by
      rw [changedFiles_congr E.S _ T1 E.dist (fun p _ => happ2 p),
        changedFiles_congr E.S T1 Tr1 E.dist hchdist]
    have hchmem : ∀ p ∈ changedFiles E.S Tr1 E.dist,
        Tree.find? ((apply_patch E.patchProc E.patchFx (refreshTree E T1)
          (read_patch_file T1) false).2.2) p = Tree.find? Tr1 p := by
      intro p hp
      rw [happ2 p]
      exact hchdist p (List.mem_of_mem_filter hp)
    have hgen2 : generate_patch E.revProc E.today E.diffO E.S
        ((apply_patch E.patchProc E.patchFx (refreshTree E T1)
          (read_patch_file T1) false).2.2)
        (changedFiles E.S Tr1 E.dist) = Except.ok P1 := by
      rw [generate_patch_congr E.revProc E.today E.diffO E.S _ Tr1 _ hchmem]
      exact hgen1
    have hemp : (changedFiles E.S Tr1 E.dist).isEmpty = false := by
      cases hcc : changedFiles E.S Tr1 E.dist
      · exact absurd hcc hch1
      · rfl
    have hregen2 : regenStep E ((apply_patch E.patchProc E.patchFx (refreshTree E T1)
        (read_patch_file T1) false).2.2) =
        Except.ok (0, write_patch_file ((apply_patch E.patchProc E.patchFx
          (refreshTree E T1) (read_patch_file T1) false).2.2) P1) := by
      simp only [regenStep]
      rw [hch2, hemp]
      simp [hgen2]
    refine ⟨write_patch_file ((apply_patch E.patchProc E.patchFx (refreshTree E T1)
      (read_patch_file T1) false).2.2) P1, ?_, ?_⟩
    · simp [cmd_update, hgit, hman, hconf, hre2, hregen2]
    · intro p
      by_cases hp : p = overlayPath
      · subst hp
        rw [find?_write_nonblank _ _ hP1blank, hov1]
      · rw [find?_write_ne _ _ p hp, happ2 p]

/-- Concrete environment for the C9 witness: one managed file, already in
sync, no customizations. -/
def envIdem : Env :=
  { gitRepo := true,
    manifestOk := true,
    stagedProc := ⟨0, "", ""⟩,
    dist := ["f"],
    S := [("f", "x")],
    revProc := ⟨0, "abc1234567", ""⟩,
    today := "2024-01-02",
    diffO := fun _ _ _ => ⟨1, "HUNK", ""⟩,
    patchProc := fun _ _ _ => ⟨0, "", ""⟩,
    patchFx := fun _ t => t,
    confirmDel := true }

theorem cmd_update_idempotent_witness :
    ∃ T2, cmd_update envIdem [("f", "x")] = Except.ok (0, T2) ∧
      ∀ p, Tree.find? T2 p = Tree.find? ([("f", "x")] : Tree) p :=
  cmd_update_idempotent envIdem [("f", "x")] [("f", "x")] rfl (by decide)
    (fun _ _ _ _ => rfl) rfl (fun _ => rfl)

end AllHands
